import Mathlib

/-!
Shallow embedding of `src/series25.rs` (driver for 25-series SPI flash and
EEPROM chips) together with theorems settling the specification claims.

Modelling conventions:
* Bytes and addresses are `Nat` with explicit `% 256` / `< 2 ^ 32` bounds
  where the Rust code uses `u8` / `u32` casts and `try_into().unwrap()`.
* SPI bus traffic is a trace of `BusEvent`s: chip-select low, a full-duplex
  transfer of a byte buffer, chip-select high.  `Flash::command` produces the
  three-event sequence `[csLow, xfer bytes, csHigh]`.
* Rust panics (`try_into().unwrap()` on an address not fitting in `u32`,
  `slice::chunks(0)`, `assert!`) are modelled as `Option.none`; `usize`
  arithmetic is modelled as unbounded `Nat`, which matches the 64-bit hosts
  the crate's own test suite runs on.
* Device responses (the bytes that come back on the bus) are explicit
  parameters: a single status byte for one status read, a list of successive
  status bytes for the `init` busy-poll loop.
-/

namespace Series25

/-- One observable SPI bus event, as produced by the driver through its
chip-select pin and its SPI master. -/
inductive BusEvent where
  | csLow : BusEvent
  | xfer : List Nat → BusEvent
  | csHigh : BusEvent
deriving DecidableEq, Repr

/-- `Flash::command(bytes)`: assert chip-select, one full-duplex transfer of
`bytes`, deassert chip-select. -/
def command_trace (bytes : List Nat) : List BusEvent :=
  [BusEvent.csLow, BusEvent.xfer bytes, BusEvent.csHigh]

/-! ## Opcodes (`enum Opcode` in the source) -/

def ReadDeviceId : Nat := 0xAB
def ReadMfDId : Nat := 0x90
def ReadJedecId : Nat := 0x9F
def WriteEnable : Nat := 0x06
def WriteDisable : Nat := 0x04
def ReadStatus : Nat := 0x05
def WriteStatus : Nat := 0x01
def ReadOp : Nat := 0x03
def PageProg : Nat := 0x02
def SectorErase : Nat := 0x20
def BlockErase : Nat := 0xD8
def ChipErase : Nat := 0xC7

/-! ## Identification (`Identification::from_jedec_id`) -/

/-- 3-byte JEDEC manufacturer and device identification.  `bytes` models the
`[u8; 3]` field; `continuations` models the `u8` continuation counter. -/
structure Identification where
  bytes : List Nat
  continuations : Nat
deriving DecidableEq, Repr

/-- `Identification::mfr_code`: first of the three collected bytes. -/
def Identification.mfr_code (i : Identification) : Nat :=
  i.bytes.getD 0 0

/-- `Identification::device_id`: the trailing two collected bytes. -/
def Identification.device_id (i : Identification) : List Nat :=
  i.bytes.drop 1

/-- `Identification::continuation_count`. -/
def Identification.continuation_count (i : Identification) : Nat :=
  i.continuations

/-- The loop in `from_jedec_id`: scan the buffer for the first byte that is
not the continuation marker `0x7F`, returning its index (offset by the
accumulator `i`), or `none` when every scanned byte is a marker. -/
def scan_continuations : Nat → List Nat → Option Nat
  | _, [] => none
  | i, b :: rest => if b != 0x7F then some i else scan_continuations (i + 1) rest

/-- The `start_idx` computed by `from_jedec_id`: the scan runs over the first
`buf.len() - 2` bytes (`.take(buf.len() - 2)`) and defaults to `0` when every
scanned byte is the continuation marker. -/
def jedec_start_idx (buf : List Nat) : Nat :=
  (scan_continuations 0 (buf.take (buf.length - 2))).getD 0

/-- `Identification::from_jedec_id(buf)`: collects
`buf[start_idx .. start_idx + 2]`; an out-of-bounds index (a Rust panic) is
`none`.  The `start_idx as u8` cast is `% 256`. -/
def from_jedec_id (buf : List Nat) : Option Identification :=
  match buf[jedec_start_idx buf]?, buf[jedec_start_idx buf + 1]?, buf[jedec_start_idx buf + 2]? with
  | some b0, some b1, some b2 => some ⟨[b0, b1, b2], jedec_start_idx buf % 256⟩
  | _, _, _ => none

/-! ## Status register (`bitflags! Status`) -/

/-- Union of all declared `Status` bits: `BUSY | WEL | PROT | SRWD`. -/
def STATUS_ALL_BITS : Nat := 0x01 ||| 0x02 ||| 0b00011100 ||| 0x80

/-- `Status::from_bits_truncate`: keep only the declared bits. -/
def from_bits_truncate (b : Nat) : Nat := b &&& STATUS_ALL_BITS

/-- `status.contains(Status::BUSY)`: bit 0 of the (truncated) status. -/
def status_busy (s : Nat) : Bool := s &&& 0x01 == 0x01

/-- The bus trace of one `read_status` call: one two-byte command
`[ReadStatus, 0]`. -/
def read_status_trace : List BusEvent := command_trace [ReadStatus, 0]

/-- `read_status`, given the response byte `r` the device places in the second
buffer slot: the decoded status byte. -/
def read_status_value (r : Nat) : Nat := from_bits_truncate (r % 256)

/-! ## Driver state (`Ready` / `Busy { done }` type states) -/

/-- The driver's type-state: `ready` models `Flash<_, _, Ready>`, `busy done`
models `Flash<_, _, Busy>` with its `done` field. -/
inductive DriverState where
  | ready : DriverState
  | busy : Bool → DriverState
deriving DecidableEq, Repr

/-- Result of polling, modelling `core::task::Poll<()>`. -/
inductive PollResult where
  | ready : PollResult
  | pending : PollResult
deriving DecidableEq, Repr

/-! ## `Flash::init`: construction-time busy-poll barrier

`responses` is the sequence of raw status bytes the device returns to the
successive `read_status` calls of the `while` loop.  The result is the number
of status reads performed before `init` returns, or `none` when every
provided response reports busy (the loop does not terminate within the
provided responses). -/

def init_loop : List Nat → Option Nat
  | [] => none
  | r :: rest =>
    if status_busy (read_status_value r) then (init_loop rest).map (· + 1)
    else some 1

/-- `Flash::init`: builds the driver in `Ready` state after the busy-poll
barrier; the bus trace is one `read_status` transaction per loop iteration. -/
def init (responses : List Nat) : Option (List BusEvent × DriverState) :=
  (init_loop responses).map
    (fun k => (((List.range k).map (fun _ => read_status_trace)).flatten, DriverState.ready))

/-! ## `Flash::wait` and `Flash::finish_waiting` -/

/-- `Flash<_, _, Busy>::wait`, given the driver's `done` flag and the raw
status byte `r` the device returns to the single `read_status` call: the bus
trace, the returned `Poll`, and the new `done` flag. -/
def wait (done : Bool) (r : Nat) : List BusEvent × PollResult × Bool :=
  if status_busy (read_status_value r) then (read_status_trace, PollResult.pending, done)
  else (read_status_trace, PollResult.ready, true)

/-- `Flash<_, _, Busy>::finish_waiting`: `assert!(self.state.done)` aborts
(`none`) when `done` is false, otherwise yields a `Ready`-state driver. -/
def finish_waiting (done : Bool) : Option DriverState :=
  if done then some DriverState.ready else none

/-! ## Address encoding and addressed commands -/

/-- The three address bytes the driver places after an opcode:
`(addr >> 16) as u8`, `(addr >> 8) as u8`, `addr as u8` for a `u32`
address. -/
def addr_bytes (a : Nat) : List Nat :=
  [(a >>> 16) % 256, (a >>> 8) % 256, a % 256]

/-- The 4-byte sector-erase command buffer. -/
def sector_erase_cmd (a : Nat) : List Nat := SectorErase :: addr_bytes a

/-- The 4-byte block-erase command buffer. -/
def block_erase_cmd (a : Nat) : List Nat := BlockErase :: addr_bytes a

/-- The 4-byte page-program command buffer. -/
def page_prog_cmd (a : Nat) : List Nat := PageProg :: addr_bytes a

/-- The 4-byte read command buffer. -/
def read_cmd (a : Nat) : List Nat := ReadOp :: addr_bytes a

/-- `Flash::write_enable`: a single-byte command transaction. -/
def write_enable_trace : List BusEvent := command_trace [WriteEnable]

/-- One erase-loop iteration's bus events: write-enable, then the 4-byte
erase command at address `a`. -/
def we_then_cmd (opcode a : Nat) : List BusEvent :=
  write_enable_trace ++ command_trace (opcode :: addr_bytes a)

/-! ## `Flash::erase_sectors` / `Flash::erase_blocks`

The Rust loop computes `addr as usize + c * unit` and converts it to `u32`
with `try_into().unwrap()`; the `unwrap` panics (`none`) when the sum does
not fit in 32 bits. -/

def erase_loop (opcode unit addr : Nat) : Nat → Nat → Option (List BusEvent)
  | _, 0 => some []
  | c, amount + 1 =>
    let a := addr + c * unit
    if a < 2 ^ 32 then
      (erase_loop opcode unit addr (c + 1) amount).map (fun rest => we_then_cmd opcode a ++ rest)
    else none

/-- `Flash::erase_sectors(addr, amount)` for a driver whose geometry has the
given `sector_size`: the bus trace and the resulting `Busy { done: false }`
state, or `none` when an iteration panics. -/
def erase_sectors (sector_size addr amount : Nat) : Option (List BusEvent × DriverState) :=
  (erase_loop SectorErase sector_size addr 0 amount).map
    (fun t => (t, DriverState.busy false))

/-- `Flash::erase_blocks(addr, amount)`, identical but for the opcode and the
`block_size` geometry field. -/
def erase_blocks (block_size addr amount : Nat) : Option (List BusEvent × DriverState) :=
  (erase_loop BlockErase block_size addr 0 amount).map
    (fun t => (t, DriverState.busy false))

/-! ## `Flash::write_bytes` -/

/-- `data.chunks(k + 1)`: consecutive chunks of `k + 1` bytes, the last chunk
possibly shorter.  (Rust's `chunks` panics on chunk size 0, hence the `k + 1`
formulation; `write_bytes` handles the 0 case.) -/
def chunks_pos (k : Nat) : List Nat → List (List Nat)
  | [] => []
  | b :: rest => ((b :: rest).take (k + 1)) :: chunks_pos k ((b :: rest).drop (k + 1))
termination_by l => l.length
decreasing_by simp [List.length_drop]; omega

/-- One `write_bytes` iteration's bus events for chunk `chunk` at address
`a`: write-enable, then — within a single chip-select window — the 4-byte
page-program command and the chunk's bytes. -/
def page_prog_events (a : Nat) (chunk : List Nat) : List BusEvent :=
  write_enable_trace ++
    [BusEvent.csLow, BusEvent.xfer (page_prog_cmd a), BusEvent.xfer chunk, BusEvent.csHigh]

/-- The `write_bytes` loop over the chunk list, with chunk index `c`; `none`
when `try_into().unwrap()` panics on a chunk address. -/
def write_loop (page_size addr : Nat) : Nat → List (List Nat) → Option (List BusEvent)
  | _, [] => some []
  | c, chunk :: rest =>
    let a := addr + c * page_size
    if a < 2 ^ 32 then
      (write_loop page_size addr (c + 1) rest).map (fun t => page_prog_events a chunk ++ t)
    else none

/-- `Flash::write_bytes(addr, data)` for a driver whose geometry has the
given `page_size`.  `data.chunks(0)` panics in Rust, hence `none` when
`page_size = 0`. -/
def write_bytes (page_size addr : Nat) (data : List Nat) : Option (List BusEvent × DriverState) :=
  match page_size with
  | 0 => none
  | k + 1 =>
    (write_loop (k + 1) addr 0 (chunks_pos k data)).map
      (fun t => (t, DriverState.busy false))

/-! ## `Flash::read` -/

/-- `Flash::read(addr, buf)`: one chip-select window containing the 4-byte
read command transfer followed by the transfer of the caller's buffer
(`buf_bytes` are the request bytes it happens to hold). -/
def read_trace (addr : Nat) (buf_bytes : List Nat) : List BusEvent :=
  [BusEvent.csLow, BusEvent.xfer (read_cmd addr), BusEvent.xfer buf_bytes, BusEvent.csHigh]

/-- Spec-side definition (for comparison with `addr_bytes`): the low 24 bits
of an address, transmitted most significant byte first. -/
def low24_msb (a : Nat) : List Nat :=
  [a % 2 ^ 24 / 2 ^ 16, a % 2 ^ 24 / 2 ^ 8 % 256, a % 2 ^ 24 % 256]

/-! ## Helper lemmas -/

/-- The busy test the driver performs on a raw status byte `r` is exactly
"bit 0 of `r` is set": the `u8` narrowing and the `from_bits_truncate` mask
(`0x9F`, which keeps bit 0) do not disturb the busy bit. -/
theorem status_busy_mod_two (r : Nat) : status_busy (read_status_value r) = (r % 2 == 1) := by
  have key : ∀ x, x < 256 → status_busy (from_bits_truncate x) = (x % 2 == 1) := by
    set_option maxRecDepth 4000 in decide
  have h := key (r % 256) (Nat.mod_lt _ (by norm_num))
  unfold read_status_value
  rw [h]
  have h2 : r % 256 % 2 = r % 2 := Nat.mod_mod_of_dvd r (by norm_num)
  rw [h2]

/-- The address bytes the driver emits are exactly the low 24 bits of the
address, most significant byte first. -/
theorem addr_bytes_eq_low24_msb (a : Nat) : addr_bytes a = low24_msb a := by
  unfold addr_bytes low24_msb
  simp only [Nat.shiftRight_eq_div_pow]
  norm_num
  omega

/-- A successful scan returns an index within the scanned list (shifted by
the accumulator). -/
theorem scan_continuations_lt (l : List Nat) :
    ∀ i j, scan_continuations i l = some j → i ≤ j ∧ j < i + l.length := by
  induction l with
  | nil => intro i j h; simp [scan_continuations] at h
  | cons b rest ih =>
    intro i j h
    unfold scan_continuations at h
    by_cases hb : b != 0x7F
    · rw [if_pos hb] at h
      simp only [Option.some.injEq] at h
      simp [← h]
    · rw [if_neg hb] at h
      have := ih (i + 1) j h
      constructor
      · omega
      · simp only [List.length_cons]
        omega

/-- If every scanned byte is the continuation marker, the scan fails. -/
theorem scan_continuations_none (l : List Nat) (h : ∀ b ∈ l, b = 0x7F) :
    ∀ i, scan_continuations i l = none := by
  induction l with
  | nil => intro i; rfl
  | cons b rest ih =>
    intro i
    unfold scan_continuations
    have hb : b = 0x7F := h b (by simp)
    rw [if_neg (by simp [hb])]
    exact ih (fun x hx => h x (by simp [hx])) (i + 1)

/-- `start_idx` stays at least 3 positions away from the end of a buffer of
length at least 3. -/
theorem jedec_start_idx_bound (buf : List Nat) (h : 3 ≤ buf.length) :
    jedec_start_idx buf + 2 < buf.length := by
  unfold jedec_start_idx
  rcases hscan : scan_continuations 0 (buf.take (buf.length - 2)) with _ | j
  · simp only [Option.getD_none]
    omega
  · have hlt := scan_continuations_lt _ 0 j hscan
    rw [List.length_take] at hlt
    simp only [Option.getD_some]
    omega

/-- Scanning `k` continuation markers followed by a non-marker byte `m` finds
`m` at index `k`. -/
theorem scan_continuations_replicate (m : Nat) (hm : m ≠ 0x7F) :
    ∀ k i, scan_continuations i (List.replicate k 0x7F ++ [m]) = some (i + k) := by
  intro k
  induction k with
  | zero =>
    intro i
    simp only [List.replicate_zero, List.nil_append]
    unfold scan_continuations
    rw [if_pos (by simp [hm])]
    simp
  | succ n ih =>
    intro i
    rw [List.replicate_succ, List.cons_append]
    unfold scan_continuations
    rw [if_neg (by simp)]
    rw [ih (i + 1)]
    congr 1
    omega

/-- On a buffer of `k` markers followed by three id bytes, `start_idx` is
exactly `k`. -/
theorem jedec_start_idx_replicate (k m d0 d1 : Nat) (hm : m ≠ 0x7F) :
    jedec_start_idx (List.replicate k 0x7F ++ [m, d0, d1]) = k := by
  unfold jedec_start_idx
  have htake : (List.replicate k 0x7F ++ [m, d0, d1]).take
      ((List.replicate k 0x7F ++ [m, d0, d1]).length - 2) = List.replicate k 0x7F ++ [m] := by
    have hlen : (List.replicate k 0x7F ++ [m, d0, d1]).length - 2 = k + 1 := by simp
    rw [hlen, List.take_append_eq_append_take]
    rw [List.take_of_length_le (by simp)]
    simp
  rw [htake, scan_continuations_replicate m hm k 0]
  simp

/-- `from_jedec_id` on `k` continuation markers followed by `[m, d0, d1]`:
the three id bytes are collected and the continuation counter is the `u8`
truncation `k % 256`. -/
theorem from_jedec_id_replicate (k m d0 d1 : Nat) (hm : m ≠ 0x7F) :
    from_jedec_id (List.replicate k 0x7F ++ [m, d0, d1]) =
      some ⟨[m, d0, d1], k % 256⟩ := by
  unfold from_jedec_id
  rw [jedec_start_idx_replicate k m d0 d1 hm]
  have h0 : (List.replicate k 0x7F ++ [m, d0, d1])[k]? = some m := by
    rw [List.getElem?_append_right (by simp)]
    simp
  have h1 : (List.replicate k 0x7F ++ [m, d0, d1])[k + 1]? = some d0 := by
    rw [List.getElem?_append_right (by simp)]
    have : k + 1 - (List.replicate k (0x7F : Nat)).length = 1 := by simp
    rw [this]
    rfl
  have h2 : (List.replicate k 0x7F ++ [m, d0, d1])[k + 2]? = some d1 := by
    rw [List.getElem?_append_right (by simp)]
    have : k + 2 - (List.replicate k (0x7F : Nat)).length = 2 := by simp
    rw [this]
    rfl
  rw [h0, h1, h2]

/-- C8: for every input buffer of length at least 3, identification decoding
always succeeds — every index it accesses is in bounds and no abort path is
reachable. -/
theorem from_jedec_id_total (buf : List Nat) (h : 3 ≤ buf.length) :
    (from_jedec_id buf).isSome := by
  have hb := jedec_start_idx_bound buf h
  unfold from_jedec_id
  rw [List.getElem?_eq_getElem (by omega), List.getElem?_eq_getElem (by omega),
    List.getElem?_eq_getElem (by omega)]
  rfl

/-- Witness for `from_jedec_id_total` at the concrete buffer `[1, 2, 3]`. -/
theorem from_jedec_id_total_witness :
    3 ≤ ([1, 2, 3] : List Nat).length ∧ (from_jedec_id [1, 2, 3]).isSome :=
  ⟨by decide, from_jedec_id_total [1, 2, 3] (by decide)⟩

/-- C9: when every byte up to the scan bound (indices `0 .. length - 3`) is
the continuation marker, the scan defaults to index 0, so decoding yields
continuation-count 0, manufacturer code `0x7F` (the byte at index 0) and the
bytes at indices 1 and 2 as device id. -/
theorem from_jedec_id_all_markers (buf : List Nat) (h3 : 3 ≤ buf.length)
    (hall : ∀ i, i + 2 < buf.length → buf[i]? = some 0x7F) :
    from_jedec_id buf = some ⟨[buf.getD 0 0, buf.getD 1 0, buf.getD 2 0], 0⟩ ∧
    buf.getD 0 0 = 0x7F := by
  have hidx : jedec_start_idx buf = 0 := by
    unfold jedec_start_idx
    rw [scan_continuations_none]
    · rfl
    · intro b hb
      rw [List.mem_iff_getElem] at hb
      obtain ⟨i, hi, hbi⟩ := hb
      rw [List.getElem_take] at hbi
      rw [List.length_take] at hi
      have hi2 : i + 2 < buf.length := by omega
      have := hall i hi2
      rw [List.getElem?_eq_getElem (by omega)] at this
      simp only [Option.some.injEq] at this
      rw [← hbi, this]
  constructor
  · unfold from_jedec_id
    rw [hidx]
    rw [List.getElem?_eq_getElem (by omega), List.getElem?_eq_getElem (by omega),
      List.getElem?_eq_getElem (by omega)]
    simp only [Option.some.injEq, Identification.mk.injEq]
    refine ⟨?_, by simp⟩
    rw [List.getD_eq_getElem buf 0 (by omega), List.getD_eq_getElem buf 0 (by omega),
      List.getD_eq_getElem buf 0 (by omega)]
  · have := hall 0 (by omega)
    rw [List.getElem?_eq_getElem (by omega)] at this
    simp only [Option.some.injEq] at this
    rw [List.getD_eq_getElem buf 0 (by omega), this]

/-- Witness for `from_jedec_id_all_markers` at `[0x7F, 0x22, 0x08]`: its only
scanned byte (index 0) is the marker. -/
theorem from_jedec_id_all_markers_witness :
    from_jedec_id [0x7F, 0x22, 0x08] = some ⟨[0x7F, 0x22, 0x08], 0⟩ ∧
    ([0x7F, 0x22, 0x08] : List Nat).getD 0 0 = 0x7F := by
  have h := from_jedec_id_all_markers [0x7F, 0x22, 0x08] (by decide)
    (by
      intro i hi
      have h0 : i = 0 := by simp at hi; omega
      subst h0
      rfl)
  simpa using h

/-- C5 (amended: `k < 256`): decoding `k` continuation markers followed by
`[m, d0, d1]` with `m ≠ 0x7F` yields continuation-count `k`, manufacturer
code `m` and device id `[d0, d1]`. -/
theorem from_jedec_id_spec (k m d0 d1 : Nat) (hm : m ≠ 0x7F) (hk : k < 256) :
    (from_jedec_id (List.replicate k 0x7F ++ [m, d0, d1])).map
      (fun ident => (ident.continuation_count, ident.mfr_code, ident.device_id)) =
      some (k, m, [d0, d1]) := by
  rw [from_jedec_id_replicate k m d0 d1 hm]
  simp [Identification.continuation_count, Identification.mfr_code, Identification.device_id,
    Nat.mod_eq_of_lt hk]

/-- Witness for `from_jedec_id_spec` at the Cypress FM25V02A response from
the crate's own test: 6 markers, then `[0xC2, 0x22, 0x08]`. -/
theorem from_jedec_id_spec_witness :
    (from_jedec_id (List.replicate 6 0x7F ++ [0xC2, 0x22, 0x08])).map
      (fun ident => (ident.continuation_count, ident.mfr_code, ident.device_id)) =
      some (6, 0xC2, [0x22, 0x08]) :=
  from_jedec_id_spec 6 0xC2 0x22 0x08 (by decide) (by decide)

/-- Counterexample to C5 as stated: at `k = 256` the `start_idx as u8` cast
wraps, so the continuation count is 0, not 256. -/
theorem from_jedec_id_overflow_cex :
    (from_jedec_id (List.replicate 256 0x7F ++ [0xC2, 0x22, 0x08])).map
      Identification.continuation_count ≠ some 256 := by
  rw [from_jedec_id_replicate 256 0xC2 0x22 0x08 (by decide)]
  simp [Identification.continuation_count]

/-- C6: every addressed command (contents read, sector erase, block erase,
page program) places, right after its opcode byte, exactly the low 24 bits
of the address as three bytes, most significant first; address `0x123456` is
transmitted as `[0x12, 0x34, 0x56]`. -/
theorem addressed_cmds_low24_msb (a : Nat) :
    read_cmd a = ReadOp :: low24_msb a ∧
    sector_erase_cmd a = SectorErase :: low24_msb a ∧
    block_erase_cmd a = BlockErase :: low24_msb a ∧
    page_prog_cmd a = PageProg :: low24_msb a ∧
    addr_bytes 0x123456 = [0x12, 0x34, 0x56] := by
  have h := addr_bytes_eq_low24_msb a
  exact ⟨by rw [read_cmd, h], by rw [sector_erase_cmd, h], by rw [block_erase_cmd, h],
    by rw [page_prog_cmd, h], by decide⟩

/-- C3: one `wait` call on a `Busy` driver performs exactly one
status-register read; when the busy bit of the response is set it returns
`Pending` and leaves `done` unchanged, otherwise it returns `Ready` and sets
`done`. -/
theorem wait_one_status_read (done : Bool) (r : Nat) :
    wait done r = (read_status_trace,
      if r % 2 == 1 then (PollResult.pending, done) else (PollResult.ready, true)) ∧
    read_status_trace = [BusEvent.csLow, BusEvent.xfer [ReadStatus, 0], BusEvent.csHigh] := by
  refine ⟨?_, rfl⟩
  unfold wait
  rw [status_busy_mod_two]
  by_cases h : r % 2 == 1
  · rw [if_pos h, if_pos h]
  · rw [if_neg h, if_neg h]

/-- C4: `finish_waiting` aborts (the `assert!` fails) on a `Busy` driver
whose completion has not been observed, and yields a `Ready` driver once it
has. -/
theorem finish_waiting_spec :
    finish_waiting false = none ∧ finish_waiting true = some DriverState.ready :=
  ⟨rfl, rfl⟩

/-- When the `init` busy-poll loop terminates after `k` status reads, the
first `k - 1` responses had the busy bit set and the `k`-th had it clear. -/
theorem init_loop_some (rs : List Nat) : ∀ k, init_loop rs = some k →
    1 ≤ k ∧ k ≤ rs.length ∧
    (∀ i, i + 1 < k → ∃ r, rs[i]? = some r ∧ r % 2 = 1) ∧
    (∃ r, rs[k - 1]? = some r ∧ r % 2 = 0) := by
  induction rs with
  | nil => intro k h; simp [init_loop] at h
  | cons r rest ih =>
    intro k h
    unfold init_loop at h
    rw [status_busy_mod_two] at h
    by_cases hb : r % 2 = 1
    · rw [if_pos (by simp [hb])] at h
      rcases hrest : init_loop rest with _ | k'
      · rw [hrest] at h; simp at h
      · rw [hrest] at h
        simp only [Option.map_some', Option.some.injEq] at h
        obtain ⟨hk1, hk2, hmid, hlast⟩ := ih k' hrest
        refine ⟨by omega, by simp; omega, ?_, ?_⟩
        · intro i hi
          match i with
          | 0 => exact ⟨r, by simp, hb⟩
          | i + 1 =>
            obtain ⟨r', hr', hr2⟩ := hmid i (by omega)
            exact ⟨r', by simpa using hr', hr2⟩
        · obtain ⟨r', hr', hr2⟩ := hlast
          refine ⟨r', ?_, hr2⟩
          have hk : k - 1 = (k' - 1) + 1 := by omega
          rw [hk]
          simpa using hr'
    · rw [if_neg (by simp [hb])] at h
      simp only [Option.some.injEq] at h
      subst h
      exact ⟨le_refl 1, by simp, fun i hi => absurd hi (by omega), ⟨r, by norm_num, by omega⟩⟩

/-- When every provided response has the busy bit set, the `init` busy-poll
loop does not terminate within those responses. -/
theorem init_loop_all_busy (rs : List Nat) (h : ∀ r ∈ rs, r % 2 = 1) :
    init_loop rs = none := by
  induction rs with
  | nil => rfl
  | cons r rest ih =>
    unfold init_loop
    rw [status_busy_mod_two]
    rw [if_pos (by simp [h r (by simp)])]
    rw [ih (fun x hx => h x (by simp [hx]))]
    rfl

/-- C7: `init` returns control only after a status read whose busy bit is
clear — if `init` finishes after `k` reads then reads `1 .. k - 1` were busy
and read `k` was not, its result is the `Ready` driver with one
status-read transaction per loop iteration — and while every response
reports busy, `init` keeps re-reading and does not return. -/
theorem init_busy_poll_barrier :
    (∀ rs k, init_loop rs = some k →
      init rs = some ((((List.range k).map (fun _ => read_status_trace)).flatten),
          DriverState.ready) ∧
      1 ≤ k ∧ k ≤ rs.length ∧
      (∀ i, i + 1 < k → ∃ r, rs[i]? = some r ∧ r % 2 = 1) ∧
      (∃ r, rs[k - 1]? = some r ∧ r % 2 = 0)) ∧
    (∀ rs, (∀ r ∈ rs, r % 2 = 1) → init rs = none) := by
  constructor
  · intro rs k h
    refine ⟨?_, init_loop_some rs k h⟩
    unfold init
    rw [h]
    rfl
  · intro rs h
    unfold init
    rw [init_loop_all_busy rs h]
    rfl

/-- Witness for `init_busy_poll_barrier`: with responses `[1, 1, 2]` the
loop returns after read 3; with responses `[1, 1]` (all busy) it does not
return. -/
theorem init_busy_poll_barrier_witness :
    init [1, 1, 2] = some ((((List.range 3).map (fun _ => read_status_trace)).flatten),
      DriverState.ready) ∧
    init [1, 1] = none :=
  ⟨(init_busy_poll_barrier.1 [1, 1, 2] 3 (by rfl)).1,
    init_busy_poll_barrier.2 [1, 1] (by decide)⟩

/-- The erase loop, started at chunk index `c`, issues one
write-enable/erase-command pair per remaining iteration, in increasing chunk
order, provided every chunk address fits in 32 bits. -/
theorem erase_loop_spec (opcode unit addr : Nat) :
    ∀ amount c, (∀ j, j < amount → addr + (c + j) * unit < 2 ^ 32) →
      erase_loop opcode unit addr c amount =
        some (((List.range amount).map
          (fun j => we_then_cmd opcode (addr + (c + j) * unit))).flatten) := by
  intro amount
  induction amount with
  | zero => intro c h; rfl
  | succ n ih =>
    intro c h
    unfold erase_loop
    rw [if_pos (by have := h 0 (by omega); simpa using this)]
    rw [ih (c + 1) (fun j hj => by
      have := h (j + 1) (by omega)
      have harith : c + (j + 1) = c + 1 + j := by omega
      rwa [harith] at this)]
    simp only [Option.map_some', Option.some.injEq]
    rw [List.range_succ_eq_map, List.map_cons, List.map_map, List.flatten_cons]
    have h0 : addr + (c + 0) * unit = addr + c * unit := by simp
    rw [h0]
    congr 1
    congr 1
    apply List.map_congr_left
    intro a _
    simp only [Function.comp_apply]
    have ha : c + 1 + a = c + Nat.succ a := by omega
    rw [ha]

/-- C1 (amended: every chunk address `addr + i * sector_size` must fit in 32
bits, else `try_into().unwrap()` panics): `erase_sectors(addr, amount)`
issues exactly `amount` write-enable / sector-erase pairs in increasing
chunk order, pair `i` naming address `addr + i * sector_size`, and returns a
`Busy` driver with `done = false`. -/
theorem erase_sectors_spec (sector_size addr amount : Nat)
    (h : ∀ i, i < amount → addr + i * sector_size < 2 ^ 32) :
    erase_sectors sector_size addr amount =
      some ((((List.range amount).map
          (fun i => we_then_cmd SectorErase (addr + i * sector_size))).flatten),
        DriverState.busy false) ∧
    ∀ a, we_then_cmd SectorErase a =
      [BusEvent.csLow, BusEvent.xfer [WriteEnable], BusEvent.csHigh,
        BusEvent.csLow, BusEvent.xfer [SectorErase, (a >>> 16) % 256, (a >>> 8) % 256, a % 256],
        BusEvent.csHigh] := by
  constructor
  · unfold erase_sectors
    rw [erase_loop_spec SectorErase sector_size addr amount 0
      (fun j hj => by have := h j hj; simpa using this)]
    simp only [Option.map_some', Option.some.injEq, Prod.mk.injEq, Nat.zero_add]
  · intro a
    rfl

/-- Witness for `erase_sectors_spec`: two sectors of 4096 bytes erased from
address 0. -/
theorem erase_sectors_spec_witness :
    erase_sectors 4096 0 2 =
      some ((((List.range 2).map
          (fun i => we_then_cmd SectorErase (0 + i * 4096))).flatten),
        DriverState.busy false) :=
  (erase_sectors_spec 4096 0 2 (by decide)).1

/-- Counterexample to C1 as stated: from address `0xFFFFFFFF` with sector
size 1, the second chunk address is `2 ^ 32`, `try_into().unwrap()` panics,
and no trace or `Busy` driver is produced at all. -/
theorem erase_sectors_overflow_cex :
    erase_sectors 1 0xFFFFFFFF 2 = none ∧
    erase_sectors 1 0xFFFFFFFF 2 ≠
      some ((((List.range 2).map
          (fun i => we_then_cmd SectorErase (0xFFFFFFFF + i * 1))).flatten),
        DriverState.busy false) := by
  refine ⟨?_, ?_⟩ <;> decide

/-- Ceiling-division recurrence used by the chunking proofs:
`ceil(L / (k+1)) = ceil((L - (k+1)) / (k+1)) + 1` for `L ≥ 1`, writing
`ceil(X / (k+1))` as `(X + k) / (k + 1)`. -/
theorem ceil_div_succ (L k : Nat) (hL : 1 ≤ L) :
    (L + k) / (k + 1) = (L - (k + 1) + k) / (k + 1) + 1 := by
  rcases Nat.le_total L (k + 1) with h | h
  · have h1 : L - (k + 1) = 0 := by omega
    have h2 : k / (k + 1) = 0 := Nat.div_eq_of_lt (by omega)
    have h3 : L + k = (L - 1) + (k + 1) := by omega
    have h4 : (L - 1) / (k + 1) = 0 := Nat.div_eq_of_lt (by omega)
    rw [h3, Nat.add_div_right _ (by omega), h4, h1]
    simp [h2]
  · have h3 : L + k = (L - (k + 1) + k) + (k + 1) := by omega
    rw [h3, Nat.add_div_right _ (by omega)]

/-- `j` is a valid chunk index iff its chunk start lies inside the data. -/
theorem lt_ceil_iff (L k j : Nat) : j < (L + k) / (k + 1) ↔ j * (k + 1) < L := by
  rw [Nat.lt_iff_add_one_le, Nat.le_div_iff_mul_le (Nat.succ_pos k)]
  have hexp : (j + 1) * (k + 1) = j * (k + 1) + (k + 1) := by ring
  rw [hexp]
  generalize j * (k + 1) = m
  omega

/-- `data.chunks(k + 1)` is the list of `ceil(len / (k+1))` take/drop
windows of width `k + 1`. -/
theorem chunks_pos_eq (k : Nat) : ∀ (data : List Nat),
    chunks_pos k data = (List.range ((data.length + k) / (k + 1))).map
      (fun i => (data.drop (i * (k + 1))).take (k + 1)) := by
  intro data
  induction data using chunks_pos.induct k with
  | case1 =>
    have h0 : (List.length ([] : List Nat) + k) / (k + 1) = 0 := by
      simp only [List.length_nil, Nat.zero_add]
      exact Nat.div_eq_of_lt (by omega)
    rw [h0]
    simp [chunks_pos]
  | case2 b rest ih =>
    rw [chunks_pos, ih]
    have hL : 1 ≤ (b :: rest).length := by simp
    have hdlen : (List.drop (k + 1) (b :: rest)).length = (b :: rest).length - (k + 1) := by
      rw [List.length_drop]
    rw [hdlen, ceil_div_succ _ k hL, List.range_succ_eq_map, List.map_cons, List.map_map]
    congr 1
    · rw [Nat.zero_mul, List.drop_zero]
    · apply List.map_congr_left
      intro i _
      simp only [Function.comp_apply, Nat.succ_eq_add_one]
      rw [List.drop_drop]
      have harith : k + 1 + i * (k + 1) = (i + 1) * (k + 1) := by ring
      rw [harith]

/-- Concatenating the chunks gives back the data. -/
theorem chunks_pos_flatten (k : Nat) : ∀ (data : List Nat),
    (chunks_pos k data).flatten = data := by
  intro data
  induction data using chunks_pos.induct k with
  | case1 => simp [chunks_pos]
  | case2 b rest ih =>
    rw [chunks_pos, List.flatten_cons, ih, List.take_append_drop]

/-- `getD` on a map over `List.range`. -/
theorem getD_map_range {α : Type} (n j : Nat) (f : Nat → α) (d : α) (hj : j < n) :
    (((List.range n).map f).getD j d) = f j := by
  rw [List.getD_eq_getElem?_getD, List.getElem?_map, List.getElem?_range hj]
  rfl

/-- The `write_bytes` loop, started at chunk index `c`, issues one
write-enable / page-program unit per chunk, in order, provided every chunk
address fits in 32 bits. -/
theorem write_loop_spec (ps addr : Nat) :
    ∀ (cl : List (List Nat)) (c : Nat),
      (∀ j, j < cl.length → addr + (c + j) * ps < 2 ^ 32) →
      write_loop ps addr c cl =
        some (((List.range cl.length).map
          (fun j => page_prog_events (addr + (c + j) * ps) (cl.getD j []))).flatten) := by
  intro cl
  induction cl with
  | nil => intro c h; rfl
  | cons ch rest ih =>
    intro c h
    unfold write_loop
    rw [if_pos (by have := h 0 (by simp); simpa using this)]
    rw [ih (c + 1) (fun j hj => by
      have := h (j + 1) (by simp only [List.length_cons]; omega)
      have harith : c + (j + 1) = c + 1 + j := by omega
      rwa [harith] at this)]
    simp only [Option.map_some', Option.some.injEq, List.length_cons]
    rw [List.range_succ_eq_map, List.map_cons, List.map_map, List.flatten_cons]
    have h0 : addr + (c + 0) * ps = addr + c * ps := by simp
    rw [h0, List.getD_cons_zero]
    congr 1
    congr 1
    apply List.map_congr_left
    intro a _
    simp only [Function.comp_apply, List.getD_cons_succ]
    have ha : c + 1 + a = c + Nat.succ a := by omega
    rw [ha]

/-- C2 (amended: `page_size` must be positive, else `data.chunks(0)` panics,
and every chunk address `addr + i * page_size` must fit in 32 bits, else
`try_into().unwrap()` panics): `write_bytes(addr, data)` partitions `data`
into `ceil(len / page_size)` consecutive take/drop chunks — all of length
`page_size` except possibly a shorter final one — and, per chunk `i`, issues
write-enable, then the 4-byte page-program command at `addr + i * page_size`
followed, with chip-select still asserted, by the chunk's bytes. -/
theorem write_bytes_spec (page_size addr : Nat) (data : List Nat)
    (hps : 0 < page_size)
    (hfit : ∀ i, i * page_size < data.length → addr + i * page_size < 2 ^ 32) :
    write_bytes page_size addr data =
      some ((((List.range ((data.length + page_size - 1) / page_size)).map
          (fun i => page_prog_events (addr + i * page_size)
            ((data.drop (i * page_size)).take page_size))).flatten),
        DriverState.busy false) ∧
    ((List.range ((data.length + page_size - 1) / page_size)).map
        (fun i => (data.drop (i * page_size)).take page_size)).flatten = data ∧
    (∀ i, i + 1 < (data.length + page_size - 1) / page_size →
      ((data.drop (i * page_size)).take page_size).length = page_size) ∧
    (∀ i, i < (data.length + page_size - 1) / page_size →
      0 < ((data.drop (i * page_size)).take page_size).length ∧
      ((data.drop (i * page_size)).take page_size).length ≤ page_size) := by
  obtain ⟨k, rfl⟩ : ∃ k, page_size = k + 1 := ⟨page_size - 1, by omega⟩
  have hceil : data.length + (k + 1) - 1 = data.length + k := by omega
  have hlen : (chunks_pos k data).length = (data.length + k) / (k + 1) := by
    rw [chunks_pos_eq]
    simp
  refine ⟨?_, ?_, ?_, ?_⟩
  · show (write_loop (k + 1) addr 0 (chunks_pos k data)).map
        (fun t => (t, DriverState.busy false)) = _
    rw [write_loop_spec (k + 1) addr (chunks_pos k data) 0 (fun j hj => by
      rw [hlen] at hj
      have := hfit j ((lt_ceil_iff data.length k j).mp hj)
      simpa using this)]
    simp only [Option.map_some', Option.some.injEq, Prod.mk.injEq]
    refine ⟨?_, trivial⟩
    rw [hceil, hlen]
    congr 1
    apply List.map_congr_left
    intro j hj
    rw [List.mem_range] at hj
    rw [Nat.zero_add, chunks_pos_eq, getD_map_range _ j _ _ hj]
  · rw [hceil, ← chunks_pos_eq]
    exact chunks_pos_flatten k data
  · intro i hi
    rw [hceil] at hi
    have hfull : (i + 1) * (k + 1) ≤ data.length := by
      have := (lt_ceil_iff data.length k (i + 1)).mp (by omega)
      omega
    rw [List.length_take, List.length_drop]
    have hexp : (i + 1) * (k + 1) = i * (k + 1) + (k + 1) := by ring
    rw [hexp] at hfull
    generalize i * (k + 1) = m at *
    omega
  · intro i hi
    rw [hceil] at hi
    have hstart : i * (k + 1) < data.length := (lt_ceil_iff data.length k i).mp hi
    rw [List.length_take, List.length_drop]
    generalize i * (k + 1) = m at *
    constructor
    · omega
    · omega

/-- Witness for `write_bytes_spec`: five bytes written with page size 2 from
address 0 (three chunks, the last shorter). -/
theorem write_bytes_spec_witness :
    write_bytes 2 0 [1, 2, 3, 4, 5] =
      some ((((List.range ((([1, 2, 3, 4, 5] : List Nat).length + 2 - 1) / 2)).map
          (fun i => page_prog_events (0 + i * 2)
            ((([1, 2, 3, 4, 5] : List Nat).drop (i * 2)).take 2))).flatten),
        DriverState.busy false) :=
  (write_bytes_spec 2 0 [1, 2, 3, 4, 5] (by norm_num)
    (fun i hi => by simp only [List.length_cons, List.length_nil] at hi; omega)).1

/-- Counterexample to C2 as stated: writing two bytes at address
`0xFFFFFFFF` with page size 1 panics on the second chunk address `2 ^ 32`,
so no trace or `Busy` driver is produced at all. -/
theorem write_bytes_overflow_cex :
    write_bytes 1 0xFFFFFFFF [0, 0] = none ∧
    write_bytes 1 0xFFFFFFFF [0, 0] ≠
      some ((((List.range 2).map
          (fun i => page_prog_events (0xFFFFFFFF + i * 1)
            ((([0, 0] : List Nat).drop (i * 1)).take 1))).flatten),
        DriverState.busy false) := by
  have hch : chunks_pos 0 [0, 0] = [[0], [0]] := by simp [chunks_pos]
  have h : write_bytes 1 0xFFFFFFFF [0, 0] =
      (write_loop 1 0xFFFFFFFF 0 (chunks_pos 0 [0, 0])).map
        (fun t => (t, DriverState.busy false)) := rfl
  rw [h, hch]
  exact ⟨by decide, by decide⟩

/-- C10 (amended: `page_size` must be positive, else `data.chunks(0)`
panics): `write_bytes` with empty data performs no bus traffic at all, yet
still returns a `Busy` driver with `done = false`, which the caller must
still poll and finish. -/
theorem write_bytes_empty (page_size addr : Nat) (hps : 0 < page_size) :
    write_bytes page_size addr [] = some ([], DriverState.busy false) := by
  obtain ⟨k, rfl⟩ : ∃ k, page_size = k + 1 := ⟨page_size - 1, by omega⟩
  show (write_loop (k + 1) addr 0 (chunks_pos k [])).map
      (fun t => (t, DriverState.busy false)) = _
  rw [show chunks_pos k [] = [] from by simp [chunks_pos]]
  rfl

/-- Witness for `write_bytes_empty` with page size 256 at address 0. -/
theorem write_bytes_empty_witness :
    write_bytes 256 0 [] = some ([], DriverState.busy false) :=
  write_bytes_empty 256 0 (by norm_num)

/-- Counterexample to C10 as stated: with `page_size = 0` even an empty
write panics in `data.chunks(0)` instead of returning a `Busy` driver. -/
theorem write_bytes_empty_cex :
    write_bytes 0 5 [] = none ∧
    write_bytes 0 5 [] ≠ some ([], DriverState.busy false) := by
  refine ⟨rfl, ?_⟩
  decide

end Series25
